import Mathlib

/-
Verification of the PageRank implementation (`pagerank.py`).

Embedding conventions:
* Python dicts are association lists `List (Page × v)` kept in dict insertion
  order; Python guarantees the key list of a dict is duplicate-free, which
  appears as `Nodup` hypotheses on theorems.
* Python floats are modelled as exact rationals `ℚ`.
* Python exceptions (`KeyError`, `ZeroDivisionError`, `IndexError`) are
  modelled with `Except PyError`.
* The pseudo-random source (`random.choice` / `random.choices`) is modelled by
  an injected stream `rand : ℕ → ℕ` of draws; a draw from a non-empty list of
  options picks the entry at index `rand i % length`.  Every transition weight
  produced by `transition_model` is positive for a damping factor in (0,1), so
  the set of outcomes reachable under this model coincides with the set of
  outcomes `random.choices` can produce.
-/

namespace PageRank

abbrev Page := String

/-- The corpus: the Python dict mapping each page to its set of outbound
links.  Link sets are modelled as duplicate-free lists. -/
abbrev Corpus := List (Page × List Page)

/-- The Python exceptions the functions under study can raise. -/
inductive PyError where
  | keyError
  | zeroDivision
  | indexOutOfRange
  | invalidArgument
  deriving DecidableEq

/-- The key list of a dict, in insertion order (Python `list(m)`). -/
def keysOf {v : Type} (m : List (Page × v)) : List Page := m.map Prod.fst

/-- Python `m[k]` for a rank/counter dict; in every use below the key is
present, so the `0` default for an absent key is never exercised. -/
def valAt (m : List (Page × ℚ)) (p : Page) : ℚ :=
  match m.find? (fun kv => kv.1 == p) with
  | some kv => kv.2
  | none => 0

/-- Python `corpus[p]` (the outbound link set); in every use below the key is
present, so the `[]` default for an absent key is never exercised. -/
def linksOf (c : Corpus) (p : Page) : List Page :=
  match c.find? (fun kv => kv.1 == p) with
  | some kv => kv.2
  | none => []

/-- Python dict assignment `m[k] = v`: overwrite in place when the key is
present, otherwise append at the end (dict insertion order). -/
def dictSet (m : List (Page × ℚ)) (k : Page) (v : ℚ) : List (Page × ℚ) :=
  if m.any (fun kv => kv.1 == k) then
    m.map (fun kv => if kv.1 == k then (kv.1, v) else kv)
  else m ++ [(k, v)]

/-- `transition_model(corpus, page, damping_factor)` from `pagerank.py`.
`corpus[page]` raises `KeyError` when `page` is not a key.  In the dangling
case every page gets `1/len(corpus)`; otherwise every page starts with
`(1 - damping_factor)/(k + 1)` and each linked page is overwritten with
`starting_prob + damping_factor/k`. -/
def transition_model (corpus : Corpus) (page : Page) (damping_factor : ℚ) :
    Except PyError (List (Page × ℚ)) :=
  match corpus.find? (fun kv => kv.1 == page) with
  | none => .error .keyError
  | some entry =>
    let page_links_number := entry.2.length
    let corpus_pages := corpus.length
    if page_links_number = 0 then
      .ok (corpus.map (fun kv => (kv.1, 1 / (corpus_pages : ℚ))))
    else
      let starting_prob := (1 - damping_factor) / ((page_links_number : ℚ) + 1)
      .ok (entry.2.foldl
        (fun acc link =>
          dictSet acc link (starting_prob + damping_factor / (page_links_number : ℚ)))
        (corpus.map (fun kv => (kv.1, starting_prob))))

/-- `check_dict(new_dict, old_dict)` from `pagerank.py`: walk the two dicts
positionally (`zip` of the item lists); a pair whose keys coincide fails the
check when `v1 - v2 > 0.001`; a pair whose keys differ is skipped. -/
def check_dict (new_dict old_dict : List (Page × ℚ)) : Bool :=
  (new_dict.zip old_dict).all (fun pr =>
    if pr.1.1 == pr.2.1 then
      if pr.1.2 - pr.2.2 > 1 / 1000 then false else true
    else true)

/-- The inner `links_sum` accumulation of `iterate_pagerank`: iterate over the
corpus dict; a page `link` that links to `page` contributes
`pagerank[link]/len(corpus[link])`, a dangling page contributes
`pagerank[link]/num_pages`. -/
def links_sum (corpus : Corpus) (pagerank : List (Page × ℚ)) (page : Page) : ℚ :=
  corpus.foldl (fun acc kv =>
    if kv.2.contains page then acc + valAt pagerank kv.1 / (kv.2.length : ℚ)
    else if kv.2.length = 0 then acc + valAt pagerank kv.1 / (corpus.length : ℚ)
    else acc) 0

/-- One un-normalized update of `iterate_pagerank`: the dict built by
`new_pagerank[page] = (1 - damping_factor)/num_pages + damping_factor * links_sum`
for each page in corpus order. -/
def new_ranks (corpus : Corpus) (damping_factor : ℚ) (pagerank : List (Page × ℚ)) :
    List (Page × ℚ) :=
  corpus.map (fun kv =>
    (kv.1, (1 - damping_factor) / (corpus.length : ℚ)
      + damping_factor * links_sum corpus pagerank kv.1))

/-- The normalization step of `iterate_pagerank`: multiply every value by
`1/sum(values)`.  (Python raises `ZeroDivisionError` on a zero total; under
the invariants of the theorems below the total is always `1`, so that branch
is unreachable and `ℚ`'s `1/0 = 0` convention is never exercised.) -/
def normalize (m : List (Page × ℚ)) : List (Page × ℚ) :=
  let total_inverse := 1 / (m.map Prod.snd).sum
  m.map (fun kv => (kv.1, kv.2 * total_inverse))

/-- The initial rank dict of `iterate_pagerank`:
`dict.fromkeys(corpus, 1.0 / num_pages)`. -/
def init_ranks (corpus : Corpus) : List (Page × ℚ) :=
  corpus.map (fun kv => (kv.1, 1 / (corpus.length : ℚ)))

/-- The `while not converged` loop of `iterate_pagerank`, with explicit fuel
standing for the number of iterations the unbounded Python loop is allowed:
`none` means the loop is still running after `fuel` iterations.  When the
convergence check succeeds the PREVIOUS mapping `pagerank` is returned, not
the just-computed `new_pagerank`. -/
def iterate_loop (corpus : Corpus) (damping_factor : ℚ) :
    ℕ → List (Page × ℚ) → Option (List (Page × ℚ))
  | 0, _ => none
  | fuel + 1, pagerank =>
    let new_pagerank := normalize (new_ranks corpus damping_factor pagerank)
    if check_dict new_pagerank pagerank then some pagerank
    else iterate_loop corpus damping_factor fuel new_pagerank

/-- `iterate_pagerank(corpus, damping_factor)` from `pagerank.py`, run with
`fuel` as the iteration bound of the unbounded loop. -/
def iterate_pagerank (corpus : Corpus) (damping_factor : ℚ) (fuel : ℕ) :
    Option (List (Page × ℚ)) :=
  iterate_loop corpus damping_factor fuel (init_ranks corpus)

/-- One weighted draw (`random.choices(list(model), weights=..., k=1)[0]`),
abstracted over the injected random index `r`: some entry of the key list of
`model`.  All weights `transition_model` produces are positive for damping in
(0,1), so every key is a possible outcome of the Python draw. -/
def weighted_draw (model : List (Page × ℚ)) (r : ℕ) : Page :=
  (keysOf model).getD (r % (keysOf model).length) ""

/-- One iteration of the sampling loop of `sample_pagerank`: compute the
transition model for the current page, increment that page's visit counter
(`sample_pagerank_dict[random_page] += 1`, a lookup that raises `KeyError`
when absent followed by a dict assignment), then draw the next page. -/
def sample_step (corpus : Corpus) (damping_factor : ℚ) (counts : List (Page × ℚ))
    (page : Page) (r : ℕ) : Except PyError (List (Page × ℚ) × Page) := do
  let model ← transition_model corpus page damping_factor
  let cur ← (match counts.find? (fun kv => kv.1 == page) with
             | some kv => Except.ok kv.2
             | none => Except.error PyError.keyError)
  Except.ok (dictSet counts page (cur + 1), weighted_draw model (r))

/-- The `for _ in range(0, n)` loop of `sample_pagerank`; `i` indexes the
injected random stream. -/
def sample_loop (corpus : Corpus) (damping_factor : ℚ) (rand : ℕ → ℕ) :
    ℕ → ℕ → List (Page × ℚ) → Page → Except PyError (List (Page × ℚ))
  | 0, _, counts, _ => .ok counts
  | m + 1, i, counts, page => do
    let s ← sample_step corpus damping_factor counts page (rand i)
    sample_loop corpus damping_factor rand m (i + 1) s.1 s.2

/-- `sample_pagerank(corpus, damping_factor, n)` from `pagerank.py`.  The
sample count `n` is a Python int (`ℤ`); `range(0, n)` runs `n.toNat` times.
`random.choice(list(corpus))` raises `IndexError` on an empty corpus, and
`1.0 / sum(...)` raises `ZeroDivisionError` when the counters total zero. -/
def sample_pagerank (corpus : Corpus) (damping_factor : ℚ) (n : ℤ) (rand : ℕ → ℕ) :
    Except PyError (List (Page × ℚ)) :=
  if (keysOf corpus).length = 0 then .error .indexOutOfRange
  else do
    let counts := corpus.map (fun kv => (kv.1, (0 : ℚ)))
    let start := (keysOf corpus).getD (rand 0 % (keysOf corpus).length) ""
    let final ← sample_loop corpus damping_factor rand n.toNat 1 counts start
    let total := (final.map Prod.snd).sum
    if total = 0 then .error .zeroDivision
    else .ok (final.map (fun kv => (kv.1, kv.2 * (1 / total))))

/-- The Graph invariant of the data model: dict keys are duplicate-free, each
outbound set is duplicate-free (it is a Python set), and every link target is
itself a key of the graph. -/
def GraphInv (corpus : Corpus) : Prop :=
  (keysOf corpus).Nodup ∧
    ∀ kv ∈ corpus, kv.2.Nodup ∧ ∀ q ∈ kv.2, q ∈ keysOf corpus

/-- The four-page sample graph `{A→{B,C}, B→{C}, C→{B}, D→{}}` used by the
symmetric cycle test (the graph of `playground.py`, with the page names of
the spec). -/
def cycle_corpus : Corpus :=
  [("A", ["B", "C"]), ("B", ["C"]), ("C", ["B"]), ("D", [])]

/-- C5: On the graph `{A→{B,C}, B→{C}, C→{B}, D→{}}` with damping `0.85`,
`transition_model` from source `A` returns exactly
`{A: 0.05, B: 0.475, C: 0.475, D: 0.05}` and from source `B` returns exactly
`{A: 0.075, B: 0.075, C: 0.925, D: 0.075}`. -/
theorem transition_model_cycle_values :
    transition_model cycle_corpus "A" (17 / 20) =
      .ok [("A", 1 / 20), ("B", 19 / 40), ("C", 19 / 40), ("D", 1 / 20)] ∧
    transition_model cycle_corpus "B" (17 / 20) =
      .ok [("A", 3 / 40), ("B", 3 / 40), ("C", 37 / 40), ("D", 3 / 40)] := by
  constructor <;> (simp +decide [transition_model, cycle_corpus, dictSet]; norm_num)

/-- C1 (refuted): on the sample graph, which satisfies the Graph invariant,
the distribution `transition_model` returns for the non-dangling page `A`
with damping `0.85` sums to `21/20 = 1.05`, which is neither exactly `1` nor
within `1e-9` relative tolerance of `1`: the base probability
`(1-d)/(k+1)` to every page plus `d/k` to each linked page totals
`N(1-d)/(k+1) + d`, not `1`. -/
theorem transition_model_sum_not_one :
    GraphInv cycle_corpus ∧
    (transition_model cycle_corpus "A" (17 / 20)).map
        (fun m => (m.map Prod.snd).sum) = .ok (21 / 20) ∧
    (21 : ℚ) / 20 ≠ 1 ∧ ¬ |(21 : ℚ) / 20 - 1| ≤ 1 / 1000000000 := by
  refine ⟨⟨by decide, by decide⟩, ?_, by norm_num, by norm_num [abs_le]⟩
  simp +decide [transition_model, cycle_corpus, dictSet]
  norm_num [Except.map]

/-- C8: whenever the source page is a key of the corpus and its outbound set
is empty (a dangling page), `transition_model` returns the uniform
distribution giving every page of the corpus probability `1/|corpus|`. -/
theorem transition_model_dangling (corpus : Corpus) (page : Page) (d : ℚ)
    (hmem : page ∈ keysOf corpus) (hdangling : linksOf corpus page = []) :
    transition_model corpus page d =
      .ok (corpus.map (fun kv => (kv.1, 1 / (corpus.length : ℚ)))) := by
  obtain ⟨entry, hfind⟩ : ∃ e, corpus.find? (fun kv => kv.1 == page) = some e := by
    rw [← Option.isSome_iff_exists, List.find?_isSome]
    obtain ⟨kv, hkv, hk⟩ := List.mem_map.mp hmem
    exact ⟨kv, hkv, by simp [hk]⟩
  have hnil : entry.2 = [] := by
    have h2 : linksOf corpus page = entry.2 := by simp [linksOf, hfind]
    rw [hdangling] at h2
    exact h2.symm
  simp [transition_model, hfind, hnil]

/-- Witness for C8 at the dangling page `D` of the sample graph. -/
theorem transition_model_dangling_witness :
    "D" ∈ keysOf cycle_corpus ∧ linksOf cycle_corpus "D" = [] ∧
    transition_model cycle_corpus "D" (17 / 20) =
      .ok (cycle_corpus.map (fun kv => (kv.1, 1 / (cycle_corpus.length : ℚ)))) :=
  ⟨by decide, by decide,
    transition_model_dangling cycle_corpus "D" (17 / 20) (by decide) (by decide)⟩

/-- C2 (refuted): `check_dict` accepts a pair of mappings whose values differ
by `0.5 > 0.001` in absolute value, because it only rejects when the new value
exceeds the old one by more than `0.001`. -/
theorem check_dict_not_absolute :
    check_dict [("A", (0 : ℚ))] [("A", (1 : ℚ) / 2)] = true ∧
      ¬ |(0 : ℚ) - 1 / 2| ≤ 1 / 1000 := by
  refine ⟨?_, by norm_num [abs_le]⟩
  simp +decide [check_dict]
  norm_num

/-- Characterization of `check_dict`: it returns `true` exactly when every
positional pair with identical keys satisfies the one-sided bound. -/
theorem check_dict_true_iff (new_dict old_dict : List (Page × ℚ)) :
    check_dict new_dict old_dict = true ↔
      ∀ pr ∈ new_dict.zip old_dict, pr.1.1 = pr.2.1 → pr.1.2 - pr.2.2 ≤ 1 / 1000 := by
  simp only [check_dict, List.all_eq_true]
  refine forall₂_congr fun pr _ => ?_
  by_cases h : pr.1.1 = pr.2.1
  · by_cases h2 : pr.1.2 - pr.2.2 > 1 / 1000 <;> simp [h, h2, not_lt, le_of_lt]
  · simp [h]

/-- C2 (amended): `check_dict` declares convergence if and only if every
positional pair of entries with identical keys satisfies the ONE-SIDED bound
`new_value - old_value ≤ 0.001`; pairs with differing keys are skipped. -/
theorem check_dict_one_sided (new_dict old_dict : List (Page × ℚ)) :
    check_dict new_dict old_dict = true ↔
      ∀ pr ∈ new_dict.zip old_dict, pr.1.1 = pr.2.1 → pr.1.2 - pr.2.2 ≤ 1 / 1000 :=
  check_dict_true_iff new_dict old_dict

/-- C7: whenever the convergence check succeeds, the loop of
`iterate_pagerank` returns the previous rank mapping (the one held before
this iteration's update), not the just-computed normalized mapping. -/
theorem iterate_loop_returns_previous (corpus : Corpus) (d : ℚ) (fuel : ℕ)
    (pagerank : List (Page × ℚ))
    (hconv : check_dict (normalize (new_ranks corpus d pagerank)) pagerank = true) :
    iterate_loop corpus d (fuel + 1) pagerank = some pagerank := by
  simp [iterate_loop, hconv]

/-- Witness for C7 on the one-page corpus, whose initial mapping is already a
fixed point. -/
theorem iterate_loop_returns_previous_witness :
    check_dict
        (normalize (new_ranks [("A", [])] (17 / 20) [("A", (1 : ℚ))]))
        [("A", (1 : ℚ))] = true ∧
    iterate_loop [("A", [])] (17 / 20) 1 [("A", (1 : ℚ))] = some [("A", (1 : ℚ))] := by
  have hconv : check_dict
      (normalize (new_ranks [("A", [])] (17 / 20) [("A", (1 : ℚ))]))
      [("A", (1 : ℚ))] = true := by
    simp +decide [check_dict, normalize, new_ranks, links_sum, valAt]
  exact ⟨hconv, iterate_loop_returns_previous [("A", [])] (17 / 20) 0 [("A", (1 : ℚ))] hconv⟩

/-- C3 (refuted): with sample count `n = 0` on the sample graph,
`sample_pagerank` fails with the divide-by-zero error coming from
`1.0 / sum(...)` over the all-zero counters — not with an invalid-argument
error (the code has no `n ≤ 0` guard). -/
theorem sample_pagerank_zero_samples :
    sample_pagerank cycle_corpus (17 / 20) 0 (fun _ => 0) =
      .error .zeroDivision ∧
    PyError.zeroDivision ≠ PyError.invalidArgument := by
  refine ⟨?_, by decide⟩
  simp +decide [sample_pagerank, sample_loop, cycle_corpus, keysOf, Bind.bind, Except.bind]

/-- C3 (amended): for every non-empty corpus, any damping factor, any random
stream, and any sample count `n ≤ 0`, `sample_pagerank` fails with a
divide-by-zero error (the counters total zero); it does not produce NaN
values, but neither does it raise an invalid-argument error. -/
theorem sample_pagerank_nonpos_n (corpus : Corpus) (d : ℚ) (n : ℤ) (rand : ℕ → ℕ)
    (hne : corpus ≠ []) (hn : n ≤ 0) :
    sample_pagerank corpus d n rand = .error .zeroDivision := by
  have htoNat : n.toNat = 0 := Int.toNat_of_nonpos hn
  have hlen : ¬(keysOf corpus).length = 0 := by
    simpa [keysOf, List.length_eq_zero] using hne
  have hsum : (((corpus.map fun kv => (kv.1, (0 : ℚ)))).map Prod.snd).sum = 0 := by
    rw [List.map_map]
    refine List.sum_eq_zero ?_
    intro x hx
    rcases List.mem_map.mp hx with ⟨kv, -, h⟩
    exact h.symm
  simp [sample_pagerank, hlen, htoNat, sample_loop, hsum, Bind.bind, Except.bind]
  rw [← List.map_map]
  exact hsum

/-- Witness for the amended C3 at a concrete negative sample count. -/
theorem sample_pagerank_nonpos_n_witness :
    cycle_corpus ≠ [] ∧ (-3 : ℤ) ≤ 0 ∧
    sample_pagerank cycle_corpus (17 / 20) (-3) (fun _ => 0) =
      .error .zeroDivision :=
  ⟨by decide, by decide,
    sample_pagerank_nonpos_n cycle_corpus (17 / 20) (-3) (fun _ => 0)
      (by decide) (by decide)⟩

/-- `valAt` on a dict whose value at each key is a function of the key. -/
theorem valAt_map_pages (l : List Page) (f : Page → ℚ) (p : Page) (hp : p ∈ l) :
    valAt (l.map fun q => (q, f q)) p = f p := by
  induction l with
  | nil => cases hp
  | cons q tl ih =>
    rcases List.mem_cons.mp hp with h | h
    · subst h
      simp [valAt]
    · by_cases hq : q == p
      · have : q = p := by simpa using hq
        subst this
        simp [valAt]
      · simpa [valAt, List.find?, hq] using ih h

/-- A dict built by mapping over the corpus keys is the dict built by mapping
over the corpus entries. -/
theorem map_keysOf_eq (corpus : Corpus) (f : Page → ℚ) :
    (keysOf corpus).map (fun q => (q, f q)) = corpus.map fun kv => (kv.1, f kv.1) := by
  simp [keysOf, List.map_map]

/-- The `links_sum` accumulation loop computes the sum, over the corpus
entries, of the contribution of each entry: `pagerank[q]/outdegree(q)` when
`q` links to `page`, `pagerank[q]/N` when `q` is dangling, `0` otherwise. -/
theorem links_fold_eq (l : List (Page × List Page)) (m : List (Page × ℚ))
    (p : Page) (N : ℚ) (a : ℚ) :
    l.foldl (fun acc kv =>
      if kv.2.contains p then acc + valAt m kv.1 / (kv.2.length : ℚ)
      else if kv.2.length = 0 then acc + valAt m kv.1 / N
      else acc) a
    = a + (l.map fun kv =>
        if p ∈ kv.2 then valAt m kv.1 / (kv.2.length : ℚ)
        else if kv.2.length = 0 then valAt m kv.1 / N
        else 0).sum := by
  induction l generalizing a with
  | nil => simp
  | cons kv tl ih =>
    have hmem : kv.2.contains p = true ↔ p ∈ kv.2 := by
      simp [List.contains, List.elem_iff]
    by_cases hc : p ∈ kv.2
    · simp only [List.foldl_cons, List.map_cons, List.sum_cons, ih,
        if_pos (hmem.mpr hc), if_pos hc]
      ring
    · have hc' : ¬kv.2.contains p = true := fun h => hc (hmem.mp h)
      by_cases hz : kv.2.length = 0
      · simp only [List.foldl_cons, List.map_cons, List.sum_cons, ih,
          if_neg hc', if_neg hc, if_pos hz]
        ring
      · simp only [List.foldl_cons, List.map_cons, List.sum_cons, ih,
          if_neg hc', if_neg hc, if_neg hz]
        ring

/-- `links_sum` as a sum over the corpus entries. -/
theorem links_sum_eq_sum (corpus : Corpus) (m : List (Page × ℚ)) (p : Page) :
    links_sum corpus m p = (corpus.map fun kv =>
      if p ∈ kv.2 then valAt m kv.1 / (kv.2.length : ℚ)
      else if kv.2.length = 0 then valAt m kv.1 / (corpus.length : ℚ)
      else 0).sum := by
  unfold links_sum
  rw [links_fold_eq, zero_add]

/-- C6: in every iteration of `iterate_pagerank`, the un-normalized new rank
of a page `p` of the corpus is `(1 - d)/N + d * links_sum`, where `links_sum`
adds, for every page `q` of the graph, `rank[q]/outdegree(q)` if `q` links to
`p` and `rank[q]/N` if `q` has no outbound links; and the initial rank of
every page is `1/N`. -/
theorem new_ranks_formula (corpus : Corpus) (d : ℚ) (pagerank : List (Page × ℚ))
    (page : Page) (hmem : page ∈ keysOf corpus) :
    valAt (new_ranks corpus d pagerank) page =
      (1 - d) / (corpus.length : ℚ) + d * (corpus.map fun kv =>
        if page ∈ kv.2 then valAt pagerank kv.1 / (kv.2.length : ℚ)
        else if kv.2.length = 0 then valAt pagerank kv.1 / (corpus.length : ℚ)
        else 0).sum ∧
    valAt (init_ranks corpus) page = 1 / (corpus.length : ℚ) := by
  constructor
  · have h1 : new_ranks corpus d pagerank = (keysOf corpus).map fun q =>
        (q, (1 - d) / (corpus.length : ℚ) + d * links_sum corpus pagerank q) := by
      rw [map_keysOf_eq]
      rfl
    rw [h1, valAt_map_pages _ _ _ hmem, links_sum_eq_sum]
  · have h2 : init_ranks corpus = (keysOf corpus).map fun q =>
        (q, 1 / (corpus.length : ℚ)) := by
      rw [map_keysOf_eq]
      rfl
    rw [h2, valAt_map_pages _ _ _ hmem]

/-- Witness for C6 at page `B` of the sample graph after one update from the
uniform initial ranks. -/
theorem new_ranks_formula_witness :
    "B" ∈ keysOf cycle_corpus ∧
    (valAt (new_ranks cycle_corpus (17 / 20) (init_ranks cycle_corpus)) "B" =
      (1 - 17 / 20) / (cycle_corpus.length : ℚ) + 17 / 20 * (cycle_corpus.map fun kv =>
        if "B" ∈ kv.2 then valAt (init_ranks cycle_corpus) kv.1 / (kv.2.length : ℚ)
        else if kv.2.length = 0 then
          valAt (init_ranks cycle_corpus) kv.1 / (cycle_corpus.length : ℚ)
        else 0).sum ∧
    valAt (init_ranks cycle_corpus) "B" = 1 / (cycle_corpus.length : ℚ)) :=
  ⟨by decide,
    new_ranks_formula cycle_corpus (17 / 20) (init_ranks cycle_corpus) "B" (by decide)⟩

/-- The key list of `normalize m` is that of `m`. -/
theorem keysOf_normalize (m : List (Page × ℚ)) : keysOf (normalize m) = keysOf m := by
  simp [keysOf, normalize, List.map_map, Function.comp]

/-- The key list of `new_ranks` is the corpus key list, in corpus order. -/
theorem keysOf_new_ranks (corpus : Corpus) (d : ℚ) (m : List (Page × ℚ)) :
    keysOf (new_ranks corpus d m) = keysOf corpus := by
  simp [keysOf, new_ranks, List.map_map, Function.comp]

/-- The key list of the initial ranks is the corpus key list. -/
theorem keysOf_init_ranks (corpus : Corpus) :
    keysOf (init_ranks corpus) = keysOf corpus := by
  simp [keysOf, init_ranks, List.map_map, Function.comp]

/-- The rank mapping held by `iterate_pagerank` after `t` iterations of the
loop body (un-normalized update followed by normalization). -/
def iter_state (corpus : Corpus) (d : ℚ) (t : ℕ) : List (Page × ℚ) :=
  (fun m => normalize (new_ranks corpus d m))^[t] (init_ranks corpus)

/-- Every mapping `iterate_pagerank` constructs lists its keys in corpus
order. -/
theorem keysOf_iter_state (corpus : Corpus) (d : ℚ) (t : ℕ) :
    keysOf (iter_state corpus d t) = keysOf corpus := by
  cases t with
  | zero => simp [iter_state, keysOf_init_ranks]
  | succ t =>
    rw [iter_state, Function.iterate_succ_apply', keysOf_normalize, keysOf_new_ranks]

/-- Two dicts with the same key list pair equal keys positionally. -/
theorem zip_keys_eq {m₁ m₂ : List (Page × ℚ)} (h : keysOf m₁ = keysOf m₂) :
    ∀ pr ∈ m₁.zip m₂, pr.1.1 = pr.2.1 := by
  induction m₁ generalizing m₂ with
  | nil => intro pr hpr; simp at hpr
  | cons a t₁ ih =>
    cases m₂ with
    | nil => intro pr hpr; simp at hpr
    | cons b t₂ =>
      simp only [keysOf, List.map_cons, List.cons.injEq] at h
      intro pr hpr
      rcases List.mem_cons.mp hpr with hpr | hpr
      · rw [hpr]; exact h.1
      · exact ih h.2 pr hpr

/-- C10: the old mapping and the freshly computed new mapping of every
iteration of `iterate_pagerank` list their keys in corpus order, every
positional pair examined by `check_dict` has equal keys, and the positional
check is therefore equivalent to requiring the one-sided bound on every
page — it skips no page of the corpus. -/
theorem iterate_positional_pairing (corpus : Corpus) (d : ℚ) (t : ℕ) :
    keysOf (iter_state corpus d t) = keysOf corpus ∧
    (∀ pr ∈ (iter_state corpus d (t + 1)).zip (iter_state corpus d t),
      pr.1.1 = pr.2.1) ∧
    (check_dict (iter_state corpus d (t + 1)) (iter_state corpus d t) = true ↔
      ∀ pr ∈ (iter_state corpus d (t + 1)).zip (iter_state corpus d t),
        pr.1.2 - pr.2.2 ≤ 1 / 1000) := by
  have hpairs := zip_keys_eq
    ((keysOf_iter_state corpus d (t + 1)).trans (keysOf_iter_state corpus d t).symm)
  refine ⟨keysOf_iter_state corpus d t, hpairs, ?_⟩
  rw [check_dict_true_iff]
  exact ⟨fun h pr hpr => h pr hpr (hpairs pr hpr), fun h pr hpr _ => h pr hpr⟩

/-- Overwriting at a key that does not occur in a dict leaves it unchanged. -/
theorem map_update_id (tl : List (Page × ℚ)) (k : Page) (v : ℚ)
    (hnotin : k ∉ keysOf tl) :
    tl.map (fun kv => if kv.1 == k then (kv.1, v) else kv) = tl := by
  refine (List.map_congr_left ?_).trans (List.map_id tl)
  intro kv hkv
  have hne : kv.1 ≠ k := fun he => hnotin (he ▸ List.mem_map.mpr ⟨kv, hkv, rfl⟩)
  simp [hne]

/-- `dictSet` at a key already present leaves the key list unchanged. -/
theorem keysOf_dictSet_mem (m : List (Page × ℚ)) (k : Page) (v : ℚ)
    (hk : k ∈ keysOf m) : keysOf (dictSet m k v) = keysOf m := by
  have hany : m.any (fun kv => kv.1 == k) = true := by
    rw [List.any_eq_true]
    obtain ⟨kv, hkv, he⟩ := List.mem_map.mp hk
    exact ⟨kv, hkv, by simp [he]⟩
  simp only [dictSet, if_pos hany, keysOf, List.map_map]
  apply List.map_congr_left
  intro kv _
  by_cases h : kv.1 = k <;> simp [h]

/-- Repeatedly `dictSet`-ting keys that are already present leaves the key
list unchanged (the update loop of `transition_model`). -/
theorem keysOf_foldl_dictSet (links : List Page) (m : List (Page × ℚ)) (val : ℚ)
    (hsub : ∀ q ∈ links, q ∈ keysOf m) :
    keysOf (links.foldl (fun acc link => dictSet acc link val) m) = keysOf m := by
  induction links generalizing m with
  | nil => rfl
  | cons q tl ih =>
    have hq : q ∈ keysOf m := hsub q (List.mem_cons_self q tl)
    have hkeys := keysOf_dictSet_mem m q val hq
    rw [List.foldl_cons,
      ih (dictSet m q val) (fun r hr => hkeys ▸ hsub r (List.mem_cons_of_mem _ hr)),
      hkeys]

/-- For a page of the corpus, `transition_model` succeeds, and under the
Graph invariant the resulting distribution has the corpus keys. -/
theorem transition_model_ok (corpus : Corpus) (page : Page) (d : ℚ)
    (hinv : GraphInv corpus) (hmem : page ∈ keysOf corpus) :
    ∃ model, transition_model corpus page d = .ok model ∧
      keysOf model = keysOf corpus := by
  obtain ⟨entry, hfind⟩ : ∃ e, corpus.find? (fun kv => kv.1 == page) = some e := by
    rw [← Option.isSome_iff_exists, List.find?_isSome]
    obtain ⟨kv, hkv, hk⟩ := List.mem_map.mp hmem
    exact ⟨kv, hkv, by simp [hk]⟩
  have hentry_mem : entry ∈ corpus := List.mem_of_find?_eq_some hfind
  by_cases hlen : entry.2.length = 0
  · refine ⟨corpus.map (fun kv => (kv.1, 1 / (corpus.length : ℚ))), ?_, ?_⟩
    · simp [transition_model, hfind, hlen]
    · simp [keysOf, List.map_map, Function.comp]
  · refine ⟨entry.2.foldl
        (fun acc link => dictSet acc link
          ((1 - d) / ((entry.2.length : ℚ) + 1) + d / (entry.2.length : ℚ)))
        (corpus.map (fun kv => (kv.1, (1 - d) / ((entry.2.length : ℚ) + 1)))),
      ?_, ?_⟩
    · simp [transition_model, hfind, hlen]
    · have hbase : keysOf (corpus.map fun kv =>
          (kv.1, (1 - d) / ((entry.2.length : ℚ) + 1))) = keysOf corpus := by
        simp [keysOf, List.map_map, Function.comp]
      rw [keysOf_foldl_dictSet _ _ _ (fun q hq => by
        rw [hbase]; exact (hinv.2 entry hentry_mem).2 q hq), hbase]

/-- Incrementing the counter of a present key adds one to the counter total
(dict keys are duplicate-free). -/
theorem dictSet_incr_sum (m : List (Page × ℚ)) (k : Page)
    (hnd : (keysOf m).Nodup) (hk : k ∈ keysOf m) :
    ((dictSet m k (valAt m k + 1)).map Prod.snd).sum = (m.map Prod.snd).sum + 1 := by
  induction m with
  | nil => simp [keysOf] at hk
  | cons a tl ih =>
    have hnd' : a.1 ∉ keysOf tl ∧ (keysOf tl).Nodup := by
      simpa [keysOf] using hnd
    have hany : (a :: tl).any (fun kv => kv.1 == k) = true := by
      rw [List.any_eq_true]
      obtain ⟨kv, hkv, he⟩ := List.mem_map.mp hk
      exact ⟨kv, hkv, by simp [he]⟩
    simp only [dictSet, if_pos hany]
    rcases List.mem_cons.mp hk with hka | hktl
    · have hbeq : (a.1 == k) = true := by simp [hka]
      have hval : valAt (a :: tl) k = a.2 := by
        simp [valAt, List.find?, hbeq]
      rw [hval, List.map_cons, if_pos hbeq,
        map_update_id tl k (a.2 + 1) (hka ▸ hnd'.1),
        List.map_cons, List.sum_cons, List.map_cons, List.sum_cons]
      ring
    · have hne_k : ¬(a.1 == k) = true := by
        have : a.1 ≠ k := fun he => hnd'.1 (he ▸ hktl)
        simpa using this
      have hval : valAt (a :: tl) k = valAt tl k := by
        simp only [valAt, List.find?]
        rw [Bool.of_not_eq_true hne_k]
      have hany_tl : tl.any (fun kv => kv.1 == k) = true := by
        rw [List.any_eq_true]
        obtain ⟨kv, hkv, he⟩ := List.mem_map.mp hktl
        exact ⟨kv, hkv, by simp [he]⟩
      have hset_tl : dictSet tl k (valAt tl k + 1)
          = tl.map (fun kv => if kv.1 == k then (kv.1, valAt tl k + 1) else kv) := by
        simp only [dictSet, if_pos hany_tl]
      rw [hval, List.map_cons, if_neg hne_k, ← hset_tl,
        List.map_cons, List.sum_cons, ih hnd'.2 hktl,
        List.map_cons, List.sum_cons]
      ring

/-- An arbitrary-index draw from a non-empty list lands in the list. -/
theorem getD_mod_mem (l : List Page) (r : ℕ) (hne : l ≠ []) :
    l.getD (r % l.length) "" ∈ l := by
  have hlt : r % l.length < l.length := Nat.mod_lt _ (List.length_pos.mpr hne)
  rw [List.getD_eq_getElem _ _ hlt]
  exact List.getElem_mem hlt

/-- The weighted draw always returns a key of the distribution dict. -/
theorem weighted_draw_mem (model : List (Page × ℚ)) (r : ℕ)
    (hne : keysOf model ≠ []) : weighted_draw model r ∈ keysOf model :=
  getD_mod_mem (keysOf model) r hne

/-- One sampling iteration succeeds, keeps the counter keys, adds one to the
counter total, and moves to a page of the corpus. -/
theorem sample_step_ok (corpus : Corpus) (d : ℚ) (counts : List (Page × ℚ))
    (page : Page) (r : ℕ) (hinv : GraphInv corpus)
    (hkeys : keysOf counts = keysOf corpus) (hpage : page ∈ keysOf corpus) :
    ∃ counts' next, sample_step corpus d counts page r = .ok (counts', next) ∧
      keysOf counts' = keysOf corpus ∧
      (counts'.map Prod.snd).sum = (counts.map Prod.snd).sum + 1 ∧
      next ∈ keysOf corpus := by
  obtain ⟨model, hmodel, hmkeys⟩ := transition_model_ok corpus page d hinv hpage
  have hpage' : page ∈ keysOf counts := hkeys ▸ hpage
  obtain ⟨kv, hfind⟩ : ∃ kv, counts.find? (fun kv => kv.1 == page) = some kv := by
    rw [← Option.isSome_iff_exists, List.find?_isSome]
    obtain ⟨kv, hkv, hk⟩ := List.mem_map.mp hpage'
    exact ⟨kv, hkv, by simp [hk]⟩
  have hval : valAt counts page = kv.2 := by
    simp [valAt, hfind]
  have hne : keysOf model ≠ [] := by
    rw [hmkeys]
    intro h
    rw [keysOf, List.map_eq_nil_iff] at h
    obtain ⟨kv2, hkv2, -⟩ := List.mem_map.mp hpage
    rw [h] at hkv2
    cases hkv2
  refine ⟨dictSet counts page (kv.2 + 1), weighted_draw model r, ?_, ?_, ?_, ?_⟩
  · simp [sample_step, hmodel, hfind, Bind.bind, Except.bind]
  · rw [keysOf_dictSet_mem counts page (kv.2 + 1) hpage', hkeys]
  · rw [← hval, dictSet_incr_sum counts page (hkeys ▸ hinv.1) hpage']
  · exact hmkeys ▸ weighted_draw_mem model r hne

/-- The sampling loop succeeds and increments the counter total once per
iteration. -/
theorem sample_loop_ok (corpus : Corpus) (d : ℚ) (rand : ℕ → ℕ)
    (hinv : GraphInv corpus) :
    ∀ (steps i : ℕ) (counts : List (Page × ℚ)) (page : Page),
      keysOf counts = keysOf corpus → page ∈ keysOf corpus →
      ∃ counts', sample_loop corpus d rand steps i counts page = .ok counts' ∧
        keysOf counts' = keysOf corpus ∧
        (counts'.map Prod.snd).sum = (counts.map Prod.snd).sum + steps := by
  intro steps
  induction steps with
  | zero =>
    intro i counts page hkeys _
    exact ⟨counts, rfl, hkeys, by simp⟩
  | succ m ih =>
    intro i counts page hkeys hpage
    obtain ⟨counts₁, next, hstep, hkeys₁, hsum₁, hnext⟩ :=
      sample_step_ok corpus d counts page (rand i) hinv hkeys hpage
    obtain ⟨counts', hloop, hkeys', hsum'⟩ := ih (i + 1) counts₁ next hkeys₁ hnext
    refine ⟨counts', ?_, hkeys', ?_⟩
    · simp [sample_loop, hstep, Bind.bind, Except.bind, hloop]
    · rw [hsum', hsum₁]
      push_cast
      ring

/-- C9: for every non-empty graph satisfying the Graph invariant, damping
factor, positive sample count and any outcome of the injected random source,
`sample_pagerank` returns a mapping whose keys are exactly the pages of the
graph and whose values sum to `1` exactly (each counter divided by the total
of all counters, which equals `n`). -/
theorem sample_pagerank_normalized (corpus : Corpus) (d : ℚ) (n : ℤ)
    (rand : ℕ → ℕ) (hinv : GraphInv corpus) (hne : corpus ≠ []) (hn : 0 < n) :
    ∃ m, sample_pagerank corpus d n rand = .ok m ∧
      keysOf m = keysOf corpus ∧ (m.map Prod.snd).sum = 1 := by
  have hlen : ¬(keysOf corpus).length = 0 := by
    simpa [keysOf, List.length_eq_zero] using hne
  have hkne : keysOf corpus ≠ [] := by
    simpa [keysOf, List.map_eq_nil_iff] using hne
  have hkeys0 : keysOf (corpus.map fun kv => (kv.1, (0 : ℚ))) = keysOf corpus := by
    simp [keysOf, List.map_map, Function.comp]
  have hsum0 : ((corpus.map fun kv => (kv.1, (0 : ℚ))).map Prod.snd).sum = 0 := by
    rw [List.map_map]
    refine List.sum_eq_zero ?_
    intro x hx
    rcases List.mem_map.mp hx with ⟨kv, -, h⟩
    exact h.symm
  have hstart : (keysOf corpus).getD (rand 0 % (keysOf corpus).length) "" ∈ keysOf corpus :=
    getD_mod_mem (keysOf corpus) (rand 0) hkne
  obtain ⟨counts', hloop, hkeys', hsum'⟩ :=
    sample_loop_ok corpus d rand hinv n.toNat 1
      (corpus.map fun kv => (kv.1, (0 : ℚ)))
      ((keysOf corpus).getD (rand 0 % (keysOf corpus).length) "") hkeys0 hstart
  have htot : (counts'.map Prod.snd).sum = (n.toNat : ℚ) := by
    rw [hsum', hsum0, zero_add]
  have htoNat_ne : n.toNat ≠ 0 := by
    intro h
    rw [Int.toNat_eq_zero] at h
    exact absurd hn (not_lt.mpr h)
  have htot_ne : (counts'.map Prod.snd).sum ≠ 0 := by
    rw [htot]
    exact_mod_cast htoNat_ne
  refine ⟨counts'.map (fun kv => (kv.1, kv.2 * (1 / (counts'.map Prod.snd).sum))),
    ?_, ?_, ?_⟩
  · simp only [sample_pagerank, Bind.bind, Except.bind, if_neg hlen]
    rw [hloop]
    simp [htot_ne]
  · rw [← hkeys']
    simp [keysOf, List.map_map, Function.comp]
  · rw [List.map_map]
    have : (Prod.snd ∘ fun kv : Page × ℚ =>
        (kv.1, kv.2 * (1 / (counts'.map Prod.snd).sum)))
        = fun kv : Page × ℚ => kv.2 * (1 / (counts'.map Prod.snd).sum) := rfl
    rw [this]
    have hfold : (counts'.map fun kv : Page × ℚ =>
        kv.2 * (1 / (counts'.map Prod.snd).sum)).sum
        = (counts'.map fun kv : Page × ℚ => kv.2).sum
          * (1 / (counts'.map Prod.snd).sum) :=
      List.sum_map_mul_right counts' (fun kv => kv.2) _
    rw [hfold]
    have hsnd : (counts'.map fun kv : Page × ℚ => kv.2) = counts'.map Prod.snd := rfl
    rw [hsnd, mul_one_div, div_self htot_ne]

/-- Witness for C9 on the sample graph with five samples. -/
theorem sample_pagerank_normalized_witness :
    GraphInv cycle_corpus ∧ cycle_corpus ≠ [] ∧ (0 : ℤ) < 5 ∧
    ∃ m, sample_pagerank cycle_corpus (17 / 20) 5 (fun i => i) = .ok m ∧
      keysOf m = keysOf cycle_corpus ∧ (m.map Prod.snd).sum = 1 :=
  ⟨⟨by decide, by decide⟩, by decide, by decide,
    sample_pagerank_normalized cycle_corpus (17 / 20) 5 (fun i => i)
      ⟨by decide, by decide⟩ (by decide) (by decide)⟩

/-! ### Termination of `iterate_pagerank` (C4)

The loop body is, on value functions over the corpus keys, an affine map
whose linear part is `d` times a column-stochastic matrix; it contracts the
L1 distance between consecutive iterates by a factor `d < 1`, so after
finitely many iterations every page's rank moves by at most `0.001` and the
convergence check succeeds. -/

/-- The transition weight of the iterative update: the coefficient with which
the rank of page `q` enters the new rank of page `p`. -/
def W (corpus : Corpus) (q p : Page) : ℚ :=
  if p ∈ linksOf corpus q then 1 / ((linksOf corpus q).length : ℚ)
  else if (linksOf corpus q).length = 0 then 1 / (corpus.length : ℚ)
  else 0

/-- The update of `iterate_pagerank` as a map on value functions. -/
def phi (corpus : Corpus) (d : ℚ) (f : Page → ℚ) (p : Page) : ℚ :=
  (1 - d) / (corpus.length : ℚ)
    + d * ∑ q ∈ (keysOf corpus).toFinset, W corpus q p * f q

/-- The value function after `t` iterations, starting from the uniform
initial ranks. -/
def phi_iter (corpus : Corpus) (d : ℚ) : ℕ → Page → ℚ
  | 0 => fun _ => 1 / (corpus.length : ℚ)
  | t + 1 => phi corpus d (phi_iter corpus d t)

/-- With duplicate-free keys, `corpus[kv.1]` is `kv.2` for every entry. -/
theorem linksOf_mem (c : Corpus) (hnd : (keysOf c).Nodup) :
    ∀ kv ∈ c, linksOf c kv.1 = kv.2 := by
  induction c with
  | nil => intro kv hkv; cases hkv
  | cons a tl ih =>
    have hnd' : a.1 ∉ keysOf tl ∧ (keysOf tl).Nodup := by
      simpa [keysOf] using hnd
    intro kv hkv
    rcases List.mem_cons.mp hkv with rfl | htl
    · simp [linksOf, List.find?]
    · have hne : ¬(a.1 == kv.1) = true := by
        have : a.1 ≠ kv.1 := fun he =>
          hnd'.1 (he ▸ List.mem_map.mpr ⟨kv, htl, rfl⟩)
        simpa using this
      have hrec := ih hnd'.2 kv htl
      simp only [linksOf, List.find?] at hrec ⊢
      rwa [Bool.of_not_eq_true hne]

/-- Mapping a function of key and value over the corpus entries equals
mapping it, through `linksOf`, over the corpus keys. -/
theorem map_entries_eq_map_keys {α : Type} (c : Corpus) (hnd : (keysOf c).Nodup)
    (g : Page → List Page → α) :
    c.map (fun kv => g kv.1 kv.2) = (keysOf c).map (fun q => g q (linksOf c q)) := by
  rw [keysOf, List.map_map]
  apply List.map_congr_left
  intro kv hkv
  simp [linksOf_mem c hnd kv hkv]

/-- `normalize` is the identity on a mapping whose values already sum to 1. -/
theorem normalize_of_sum_one (m : List (Page × ℚ))
    (h : (m.map Prod.snd).sum = 1) : normalize m = m := by
  simp [normalize, h]

/-- Transition weights are non-negative. -/
theorem W_nonneg (corpus : Corpus) (q p : Page) : 0 ≤ W corpus q p := by
  unfold W
  by_cases h1 : p ∈ linksOf corpus q
  · simp only [if_pos h1]
    positivity
  · simp only [if_neg h1]
    by_cases h2 : (linksOf corpus q).length = 0
    · simp only [if_pos h2]
      positivity
    · simp [h2]

/-- Column-stochasticity: under the Graph invariant the weights out of any
corpus page sum to 1 over the corpus pages. -/
theorem W_col_sum (corpus : Corpus) (hinv : GraphInv corpus) (hne : corpus ≠ [])
    (q : Page) (hq : q ∈ keysOf corpus) :
    ∑ p ∈ (keysOf corpus).toFinset, W corpus q p = 1 := by
  obtain ⟨kv, hkv, hk1⟩ := List.mem_map.mp hq
  have hlinks : linksOf corpus q = kv.2 := hk1 ▸ linksOf_mem corpus hinv.1 kv hkv
  have hN : ((corpus.length : ℚ)) ≠ 0 := by
    exact_mod_cast fun h => hne (List.length_eq_zero.mp (by exact_mod_cast h))
  have hcard : ((keysOf corpus).toFinset.card : ℚ) = (corpus.length : ℚ) := by
    rw [List.toFinset_card_of_nodup hinv.1]
    simp [keysOf]
  by_cases hlen : (linksOf corpus q).length = 0
  · have hnil : linksOf corpus q = [] := List.length_eq_zero.mp hlen
    have : ∀ p ∈ (keysOf corpus).toFinset, W corpus q p = 1 / (corpus.length : ℚ) := by
      intro p _
      simp [W, hnil]
    rw [Finset.sum_congr rfl this, Finset.sum_const, nsmul_eq_mul, hcard]
    field_simp
  · have hsub : ∀ r ∈ linksOf corpus q, r ∈ keysOf corpus := by
      rw [hlinks]
      exact (hinv.2 kv hkv).2
    have hnodup : (linksOf corpus q).Nodup := hlinks ▸ (hinv.2 kv hkv).1
    have hpt : ∀ p ∈ (keysOf corpus).toFinset, W corpus q p =
        if p ∈ linksOf corpus q then 1 / ((linksOf corpus q).length : ℚ) else 0 := by
      intro p _
      by_cases hp : p ∈ linksOf corpus q
      · simp [W, hp]
      · simp [W, hp, hlen]
    rw [Finset.sum_congr rfl hpt, ← Finset.sum_filter]
    have hfilt : (keysOf corpus).toFinset.filter (· ∈ linksOf corpus q)
        = (linksOf corpus q).toFinset := by
      ext p
      simp only [Finset.mem_filter, List.mem_toFinset]
      exact ⟨fun h => h.2, fun h => ⟨hsub p h, h⟩⟩
    rw [hfilt, Finset.sum_const, nsmul_eq_mul, List.toFinset_card_of_nodup hnodup]
    have hlenQ : ((linksOf corpus q).length : ℚ) ≠ 0 := by
      exact_mod_cast hlen
    field_simp

/-- `links_sum`, evaluated on a dict over the corpus keys, is the weighted
sum of the value function. -/
theorem links_sum_eq_W_sum (c : Corpus) (hnd : (keysOf c).Nodup) (f : Page → ℚ)
    (p : Page) :
    links_sum c ((keysOf c).map fun q => (q, f q)) p
      = ∑ q ∈ (keysOf c).toFinset, W c q p * f q := by
  rw [links_sum_eq_sum]
  rw [map_entries_eq_map_keys c hnd (fun q links =>
    if p ∈ links then valAt ((keysOf c).map fun r => (r, f r)) q / (links.length : ℚ)
    else if links.length = 0 then
      valAt ((keysOf c).map fun r => (r, f r)) q / (c.length : ℚ)
    else 0)]
  rw [← List.sum_toFinset _ hnd]
  apply Finset.sum_congr rfl
  intro q hq
  have hval : valAt ((keysOf c).map fun r => (r, f r)) q = f q :=
    valAt_map_pages _ _ _ (List.mem_toFinset.mp hq)
  unfold W
  by_cases h1 : p ∈ linksOf c q
  · rw [if_pos h1, if_pos h1, hval]
    ring
  · rw [if_neg h1, if_neg h1]
    by_cases h2 : (linksOf c q).length = 0
    · rw [if_pos h2, if_pos h2, hval]
      ring
    · rw [if_neg h2, if_neg h2, zero_mul]

/-- The un-normalized update turns a dict of values `f` over the corpus keys
into the dict of values `phi f`. -/
theorem new_ranks_keysmap (c : Corpus) (hnd : (keysOf c).Nodup) (d : ℚ)
    (f : Page → ℚ) :
    new_ranks c d ((keysOf c).map fun q => (q, f q))
      = (keysOf c).map fun p => (p, phi c d f p) := by
  unfold new_ranks
  rw [map_keysOf_eq c (fun p => phi c d f p)]
  apply List.map_congr_left
  intro kv _
  rw [Prod.mk.injEq]
  exact ⟨rfl, by rw [links_sum_eq_W_sum c hnd f kv.1]; rfl⟩

/-- The value total of a dict over the corpus keys. -/
theorem keysmap_snd_sum (c : Corpus) (hnd : (keysOf c).Nodup) (f : Page → ℚ) :
    (((keysOf c).map fun q => (q, f q)).map Prod.snd).sum
      = ∑ q ∈ (keysOf c).toFinset, f q := by
  rw [List.map_map]
  have hcomp : (Prod.snd ∘ fun q : Page => (q, f q)) = f := rfl
  rw [hcomp, List.sum_toFinset _ hnd]

/-- The update preserves totals affinely; in particular it maps value
functions of total 1 to value functions of total 1. -/
theorem sum_phi (c : Corpus) (hinv : GraphInv c) (hne : c ≠ []) (d : ℚ)
    (f : Page → ℚ) :
    ∑ p ∈ (keysOf c).toFinset, phi c d f p
      = (1 - d) + d * ∑ q ∈ (keysOf c).toFinset, f q := by
  unfold phi
  rw [Finset.sum_add_distrib, Finset.sum_const, nsmul_eq_mul]
  have hcard : (((keysOf c).toFinset.card : ℚ)) = (c.length : ℚ) := by
    rw [List.toFinset_card_of_nodup hinv.1]
    simp [keysOf]
  have hN : ((c.length : ℚ)) ≠ 0 := by
    exact_mod_cast fun h => hne (List.length_eq_zero.mp (by exact_mod_cast h))
  rw [hcard]
  congr 1
  · field_simp
  · rw [← Finset.mul_sum]
    congr 1
    rw [Finset.sum_comm]
    apply Finset.sum_congr rfl
    intro q hq
    rw [← Finset.sum_mul, W_col_sum c hinv hne q (List.mem_toFinset.mp hq), one_mul]

/-- The update contracts L1 distance by the damping factor. -/
theorem phi_contraction (c : Corpus) (hinv : GraphInv c) (hne : c ≠ [])
    (d : ℚ) (hd0 : 0 ≤ d) (f g : Page → ℚ) :
    ∑ p ∈ (keysOf c).toFinset, |phi c d f p - phi c d g p|
      ≤ d * ∑ q ∈ (keysOf c).toFinset, |f q - g q| := by
  have hpt : ∀ p ∈ (keysOf c).toFinset,
      |phi c d f p - phi c d g p|
        ≤ d * ∑ q ∈ (keysOf c).toFinset, W c q p * |f q - g q| := by
    intro p _
    have heq : phi c d f p - phi c d g p
        = d * ∑ q ∈ (keysOf c).toFinset, W c q p * (f q - g q) := by
      unfold phi
      rw [add_sub_add_left_eq_sub, ← mul_sub, ← Finset.sum_sub_distrib]
      congr 1
      apply Finset.sum_congr rfl
      intro q _
      ring
    rw [heq, abs_mul, abs_of_nonneg hd0]
    apply mul_le_mul_of_nonneg_left _ hd0
    calc |∑ q ∈ (keysOf c).toFinset, W c q p * (f q - g q)|
        ≤ ∑ q ∈ (keysOf c).toFinset, |W c q p * (f q - g q)| :=
          Finset.abs_sum_le_sum_abs _ _
      _ = ∑ q ∈ (keysOf c).toFinset, W c q p * |f q - g q| :=
          Finset.sum_congr rfl (fun q _ => by
            rw [abs_mul, abs_of_nonneg (W_nonneg c q p)])
  refine (Finset.sum_le_sum hpt).trans ?_
  rw [← Finset.mul_sum]
  apply mul_le_mul_of_nonneg_left _ hd0
  rw [Finset.sum_comm]
  refine le_of_eq ?_
  apply Finset.sum_congr rfl
  intro q hq
  rw [← Finset.sum_mul, W_col_sum c hinv hne q (List.mem_toFinset.mp hq), one_mul]

/-- The value totals stay exactly 1 along the iteration. -/
theorem sum_phi_iter (c : Corpus) (hinv : GraphInv c) (hne : c ≠ []) (d : ℚ) :
    ∀ t, ∑ q ∈ (keysOf c).toFinset, phi_iter c d t q = 1 := by
  have hcard : (((keysOf c).toFinset.card : ℚ)) = (c.length : ℚ) := by
    rw [List.toFinset_card_of_nodup hinv.1]
    simp [keysOf]
  have hN : ((c.length : ℚ)) ≠ 0 := by
    exact_mod_cast fun h => hne (List.length_eq_zero.mp (by exact_mod_cast h))
  intro t
  induction t with
  | zero =>
    simp only [phi_iter]
    rw [Finset.sum_const, nsmul_eq_mul, hcard]
    field_simp
  | succ t ih =>
    simp only [phi_iter]
    rw [sum_phi c hinv hne d _, ih]
    ring

/-- The dict `iterate_pagerank` holds after `t` iterations is the dict of the
value function `phi_iter t` over the corpus keys (normalization is the
identity because the totals stay 1). -/
theorem iter_state_eq (c : Corpus) (hinv : GraphInv c) (hne : c ≠ []) (d : ℚ) :
    ∀ t, iter_state c d t = (keysOf c).map fun q => (q, phi_iter c d t q) := by
  intro t
  induction t with
  | zero =>
    show init_ranks c = _
    rw [map_keysOf_eq c (fun q => phi_iter c d 0 q)]
    rfl
  | succ t ih =>
    have hstep : iter_state c d (t + 1)
        = normalize (new_ranks c d (iter_state c d t)) := by
      unfold iter_state
      rw [Function.iterate_succ_apply']
    have hsum1 : ((((keysOf c).map fun p =>
        (p, phi c d (phi_iter c d t) p)).map Prod.snd).sum) = 1 := by
      rw [keysmap_snd_sum c hinv.1 _]
      have := sum_phi_iter c hinv hne d (t + 1)
      simpa only [phi_iter] using this
    rw [hstep, ih, new_ranks_keysmap c hinv.1 d _, normalize_of_sum_one _ hsum1]
    rfl

/-- Consecutive iterates approach each other geometrically in L1. -/
theorem delta_le (c : Corpus) (hinv : GraphInv c) (hne : c ≠ []) (d : ℚ)
    (hd0 : 0 ≤ d) :
    ∀ t, ∑ p ∈ (keysOf c).toFinset, |phi_iter c d (t + 1) p - phi_iter c d t p|
      ≤ d ^ t * ∑ p ∈ (keysOf c).toFinset, |phi_iter c d 1 p - phi_iter c d 0 p| := by
  intro t
  induction t with
  | zero => simp
  | succ t ih =>
    have hstep := phi_contraction c hinv hne d hd0
      (phi_iter c d (t + 1)) (phi_iter c d t)
    calc ∑ p ∈ (keysOf c).toFinset, |phi_iter c d (t + 2) p - phi_iter c d (t + 1) p|
        ≤ d * ∑ p ∈ (keysOf c).toFinset, |phi_iter c d (t + 1) p - phi_iter c d t p| :=
          hstep
      _ ≤ d * (d ^ t *
            ∑ p ∈ (keysOf c).toFinset, |phi_iter c d 1 p - phi_iter c d 0 p|) :=
          mul_le_mul_of_nonneg_left ih hd0
      _ = d ^ (t + 1) *
            ∑ p ∈ (keysOf c).toFinset, |phi_iter c d 1 p - phi_iter c d 0 p| := by
          ring

/-- After finitely many iterations consecutive iterates are within the
convergence tolerance in L1. -/
theorem exists_small_delta (c : Corpus) (hinv : GraphInv c) (hne : c ≠ [])
    (d : ℚ) (hd0 : 0 < d) (hd1 : d < 1) :
    ∃ T, ∑ p ∈ (keysOf c).toFinset,
      |phi_iter c d (T + 1) p - phi_iter c d T p| ≤ 1 / 1000 := by
  set Δ := ∑ p ∈ (keysOf c).toFinset, |phi_iter c d 1 p - phi_iter c d 0 p| with hΔ
  have hΔ0 : 0 ≤ Δ := Finset.sum_nonneg (fun p _ => abs_nonneg _)
  have hpos : (0 : ℚ) < (1 / 1000) / (Δ + 1) := by positivity
  obtain ⟨T, hT⟩ := exists_pow_lt_of_lt_one hpos hd1
  refine ⟨T, (delta_le c hinv hne d hd0.le T).trans ?_⟩
  calc d ^ T * Δ ≤ ((1 / 1000) / (Δ + 1)) * Δ :=
        mul_le_mul_of_nonneg_right hT.le hΔ0
    _ ≤ 1 / 1000 := by
        rw [div_mul_eq_mul_div, div_le_iff₀ (by positivity)]
        nlinarith

/-- When consecutive iterates are within the tolerance in L1, the convergence
check succeeds on the corresponding dicts. -/
theorem check_dict_iter_small (c : Corpus) (hinv : GraphInv c) (hne : c ≠ [])
    (d : ℚ) (T : ℕ)
    (hsmall : ∑ p ∈ (keysOf c).toFinset,
      |phi_iter c d (T + 1) p - phi_iter c d T p| ≤ 1 / 1000) :
    check_dict (iter_state c d (T + 1)) (iter_state c d T) = true := by
  rw [iter_state_eq c hinv hne d (T + 1), iter_state_eq c hinv hne d T,
    check_dict_true_iff]
  intro pr hpr _
  rw [List.zip_map'] at hpr
  obtain ⟨q, hq, rfl⟩ := List.mem_map.mp hpr
  have h1 : phi_iter c d (T + 1) q - phi_iter c d T q
      ≤ |phi_iter c d (T + 1) q - phi_iter c d T q| := le_abs_self _
  have h2 : |phi_iter c d (T + 1) q - phi_iter c d T q|
      ≤ ∑ p ∈ (keysOf c).toFinset, |phi_iter c d (T + 1) p - phi_iter c d T p| :=
    @Finset.single_le_sum _ _ _
      (fun p => |phi_iter c d (T + 1) p - phi_iter c d T p|) _
      (fun p _ => abs_nonneg _) q (List.mem_toFinset.mpr hq)
  exact le_trans h1 (le_trans h2 hsmall)

/-- If the convergence check succeeds after some number of iterations below
the fuel, the loop returns. -/
theorem iterate_loop_isSome (c : Corpus) (d : ℚ) :
    ∀ (fuel : ℕ) (m : List (Page × ℚ)),
      (∃ t < fuel,
        check_dict ((fun s => normalize (new_ranks c d s))^[t + 1] m)
          ((fun s => normalize (new_ranks c d s))^[t] m) = true) →
      (iterate_loop c d fuel m).isSome := by
  intro fuel
  induction fuel with
  | zero =>
    rintro m ⟨t, ht, -⟩
    exact absurd ht (Nat.not_lt_zero t)
  | succ n ih =>
    rintro m ⟨t, ht, hc⟩
    by_cases h0 : check_dict (normalize (new_ranks c d m)) m = true
    · simp [iterate_loop, h0]
    · have ht0 : t ≠ 0 := by
        rintro rfl
        simp only [Function.iterate_one, Function.iterate_zero, id_eq] at hc
        exact h0 hc
      obtain ⟨s, rfl⟩ := Nat.exists_eq_succ_of_ne_zero ht0
      have hred : iterate_loop c d (n + 1) m
          = iterate_loop c d n (normalize (new_ranks c d m)) := by
        simp [iterate_loop, h0]
      rw [hred]
      apply ih
      refine ⟨s, by omega, ?_⟩
      simp only [← Function.iterate_succ_apply]
      exact hc

/-- C4: for every non-empty graph satisfying the Graph invariant and every
damping factor strictly inside (0,1), the loop of `iterate_pagerank`
terminates: some finite fuel makes the fuelled embedding of the unbounded
`while` loop return. -/
theorem iterate_pagerank_terminates (corpus : Corpus) (d : ℚ)
    (hinv : GraphInv corpus) (hne : corpus ≠ []) (hd0 : 0 < d) (hd1 : d < 1) :
    ∃ fuel, (iterate_pagerank corpus d fuel).isSome := by
  obtain ⟨T, hT⟩ := exists_small_delta corpus hinv hne d hd0 hd1
  have hchk := check_dict_iter_small corpus hinv hne d T hT
  refine ⟨T + 1, ?_⟩
  unfold iterate_pagerank
  apply iterate_loop_isSome corpus d (T + 1) (init_ranks corpus)
  exact ⟨T, Nat.lt_succ_self T, hchk⟩

/-- Witness for C4 on the sample graph with damping 0.85. -/
theorem iterate_pagerank_terminates_witness :
    GraphInv cycle_corpus ∧ cycle_corpus ≠ [] ∧
    (0 : ℚ) < 17 / 20 ∧ (17 : ℚ) / 20 < 1 ∧
    ∃ fuel, (iterate_pagerank cycle_corpus (17 / 20) fuel).isSome :=
  ⟨⟨by decide, by decide⟩, by decide, by norm_num, by norm_num,
    iterate_pagerank_terminates cycle_corpus (17 / 20)
      ⟨by decide, by decide⟩ (by decide) (by norm_num) (by norm_num)⟩

end PageRank